import Mathlib

/-!
Verification of the Porcupine chess engine's search and evaluation core.

This development shallowly embeds the engine's Rust sources
(`src/types/score.rs`, `src/search/{tt,history,limits,ordering,see,qsearch}.rs`,
`src/eval/{hce,endgame,mod,nnue}.rs`) into Lean: machine integers become
`Int`/`Nat` with explicit two's-complement wrapping where the Rust code casts
or wraps, bitboards become `Nat` (low 64 bits), and code that can panic
(fixed-size array indexing) returns `Option`.  External collaborator types
(the `movegen`/`chess` board, move and attack tables, the `nnue` crate's
accumulator) are modelled from the specification where noted.
-/

namespace Porcupine

/-! ## Basic machine-integer helpers -/

/-- Two's-complement wrap to 16 bits: the value of `x as i16` in Rust. -/
def wrap16 (x : Int) : Int := (x + 32768) % 65536 - 32768

/-- Number of set bits among the low 64 bits of a bitboard. -/
def popcount64 (n : Nat) : Nat :=
  ∑ i ∈ Finset.range 64, if n.testBit i then 1 else 0

/-- Index of the least-significant set bit among the low 64 bits
(0 when there is none); models `Bitboard::lsb` of the collaborator. -/
def lsb64 (n : Nat) : Nat :=
  (((List.range 64).find? fun i => n.testBit i)).getD 0

/-! ## Chess model (collaborator types)

Modelled from the spec: the board/move collaborator (`movegen`/`chess`
crates, and the repository's `types` module which is not among the sources).
Squares are indices 0..63 with A1 = 0, H8 = 63; a bitboard is a `Nat` whose
bit `i` is square `i`.  The board exposes exactly the surface §3 names:
piece/color bitboards, side to move, Zobrist hash, and derived
`piece_at`/`occupied`/`king_square`. -/

inductive Piece where
  | Pawn | Knight | Bishop | Rook | Queen | King
deriving DecidableEq, Repr

inductive Color where
  | White | Black
deriving DecidableEq, Repr

/-- `!color` of the source. -/
def Color.flip : Color → Color
  | .White => .Black
  | .Black => .White

/-- `Piece::index` (Pawn = 0 … King = 5). -/
def Piece.index : Piece → Nat
  | .Pawn => 0 | .Knight => 1 | .Bishop => 2 | .Rook => 3 | .Queen => 4 | .King => 5

/-- Move flags the core consults (`flag()` in the source). -/
inductive MoveFlag where
  | Quiet
  | EnPassant
  | KingCastle
  | QueenCastle
  | Promotion (piece : Piece)
deriving DecidableEq, Repr

/-- `MoveFlag::promotion_piece`. -/
def MoveFlag.promotionPiece : MoveFlag → Option Piece
  | .Promotion p => some p
  | _ => none

/-- A move: `from()`, `to()` and `flag()` of the collaborator move type. -/
structure Move where
  fromSq : Nat
  toSq : Nat
  flag : MoveFlag
deriving DecidableEq, Repr

/-- `Move::get_promotion` / `flag().promotion_piece()`. -/
def Move.getPromotion (m : Move) : Option Piece := m.flag.promotionPiece

/-- `Move::is_promotion`. -/
def Move.isPromotion (m : Move) : Bool := m.getPromotion.isSome

/-- The board collaborator: piece and color bitboards, side to move and
Zobrist hash, as listed in §3 of the spec. -/
structure Board where
  pieceBB : Piece → Nat
  colorBB : Color → Nat
  turn : Color
  hash : Nat

/-- `Board::occupied()`: union of both color bitboards. -/
def Board.occupied (b : Board) : Nat := b.colorBB .White ||| b.colorBB .Black

/-- All (piece, color) pairs, in a fixed scan order. -/
def pieceColorPairs : List (Piece × Color) :=
  [Piece.Pawn, Piece.Knight, Piece.Bishop, Piece.Rook, Piece.Queen, Piece.King].flatMap
    fun p => [(p, Color.White), (p, Color.Black)]

/-- `Board::piece_at(sq)`: the piece and color occupying a square, derived
from the bitboards (on a consistent board at most one pair matches). -/
def Board.pieceAt (b : Board) (sq : Nat) : Option (Piece × Color) :=
  pieceColorPairs.find? fun pc => (b.pieceBB pc.1 &&& b.colorBB pc.2).testBit sq

/-- `Board::piece_on(sq)` (the `chess`-crate surface used by ordering.rs). -/
def Board.pieceOn (b : Board) (sq : Nat) : Option Piece := (b.pieceAt sq).map Prod.fst

/-- `Board::king_square(color)`: first square of the king bitboard. -/
def Board.kingSquare (b : Board) (c : Color) : Nat :=
  lsb64 (b.pieceBB .King &&& b.colorBB c)

/-- Squares of a bitboard in ascending (LSB-first) order, as the
collaborator's bitboard iterator yields them. -/
def bbSquares (bb : Nat) : List Nat := (List.range 64).filter fun i => bb.testBit i

/-! ## Score (`src/types/score.rs`)

A `Score` is an `i16`; we model its value as an `Int` and apply `wrap16`
exactly where the Rust code casts `as i16`. -/

def SCORE_NONE : Int := -32001
def SCORE_INFINITY : Int := 32000
def SCORE_MATE : Int := 31000
def SCORE_MATE_IN_MAX : Int := SCORE_MATE - 1000
def SCORE_MATED_IN_MAX : Int := -SCORE_MATE + 1000

/-- Modelled from the spec: `MAX_PLY` lives in the repository's `types`
module, which is not among the sources; §3 gives the example value 128. -/
def MAX_PLY : Int := 128

/-- `Score::is_mate`. -/
def scoreIsMate (s : Int) : Bool := SCORE_MATE_IN_MAX ≤ s

/-- `Score::is_mated`. -/
def scoreIsMated (s : Int) : Bool := s ≤ SCORE_MATED_IN_MAX

/-- `Score::to_tt(ply)`: the i32 sum is cast back `as i16`, hence `wrap16`. -/
def scoreToTT (s ply : Int) : Int :=
  if scoreIsMate s then wrap16 (s + ply)
  else if scoreIsMated s then wrap16 (s - ply)
  else s

/-- `Score::from_tt(ply)`. -/
def scoreFromTT (s ply : Int) : Int :=
  if scoreIsMate s then wrap16 (s - ply)
  else if scoreIsMated s then wrap16 (s + ply)
  else s

/-! ## Transposition table generation (`src/search/tt.rs`) -/

/-- `TranspositionTable::new_search`: `generation.wrapping_add(1)` on a `u8`. -/
def ttNewSearch (g : Nat) : Nat := (g + 1) % 256

/-- The table's generation after `n` calls of `new_search` starting from the
fresh value 0 (`new`/`clear` reset it to 0). -/
def ttGenerationAfter (n : Nat) : Nat := ttNewSearch^[n] 0

/-- `TTEntry::new`'s bound-and-age byte: `(bound as u8) | ((generation & 0x3F) << 2)`. -/
def ttEntryBoundAndAge (bound generation : Nat) : Nat :=
  bound ||| ((generation &&& 0x3F) <<< 2)

/-- `TTEntry::generation`: `bound_and_age >> 2`. -/
def ttEntryGeneration (boundAndAge : Nat) : Nat := boundAndAge >>> 2

/-! ## History table (`src/search/history.rs`) -/

/-- The gravity update of one history cell
(`HistoryTable::update`): the bonus is clamped to ±16384 and
`new = old + clamped − old·|clamped|/16384` with Rust (truncated) division. -/
def historyUpdateEntry (old bonus : Int) : Int :=
  let clampedBonus := min 16384 (max (-16384) bonus)
  old + clampedBonus - (old * |clampedBonus|).tdiv 16384

/-- History table indexed `[color][from][to]`. -/
def HistTable := Color → Nat → Nat → Int

/-- `HistoryTable::new` — all zeros. -/
def historyNew : HistTable := fun _ _ _ => 0

/-- `HistoryTable::get`. -/
def historyGet (t : HistTable) (color : Color) (mv : Move) : Int :=
  t color mv.fromSq mv.toSq

/-- `HistoryTable::update` — rewrites the addressed cell only. -/
def historyUpdate (t : HistTable) (color : Color) (mv : Move) (bonus : Int) : HistTable :=
  fun c f toSq =>
    if c = color ∧ f = mv.fromSq ∧ toSq = mv.toSq then
      historyUpdateEntry (t color mv.fromSq mv.toSq) bonus
    else t c f toSq

/-- `HistoryTable::age` — every cell is divided by 2 (Rust `/=`, truncated). -/
def historyAge (t : HistTable) : HistTable := fun c f toSq => (t c f toSq).tdiv 2

/-- `HistoryTable::clear`. -/
def historyClear (_ : HistTable) : HistTable := fun _ _ _ => 0

/-- One call against the history table. -/
inductive HistoryOp where
  | update (color : Color) (mv : Move) (bonus : Int)
  | age
  | clear

/-- Apply one history-table call. -/
def historyApplyOp (t : HistTable) : HistoryOp → HistTable
  | .update c mv bonus => historyUpdate t c mv bonus
  | .age => historyAge t
  | .clear => historyClear t

/-- The table after a sequence of calls, starting from all zeros. -/
def historyRun (ops : List HistoryOp) : HistTable :=
  ops.foldl historyApplyOp historyNew

/-! ## Search limits and time manager (`src/search/limits.rs`) -/

/-- `SearchLimits` (times in milliseconds, `u64` modelled as `Nat`). -/
structure SearchLimits where
  movetime : Option Nat
  wtime : Option Nat
  btime : Option Nat
  winc : Option Nat
  binc : Option Nat
  movestogo : Option Nat
  infinite : Bool
  moveOverhead : Nat

def U64_MAX : Nat := 2 ^ 64 - 1

/-- `TimeManager` (the `Instant` start time is wall clock and not modelled). -/
structure TimeManager where
  softLimit : Nat
  hardLimit : Nat
  moveOverhead : Nat
  infinite : Bool
deriving DecidableEq, Repr

/-- `TimeManager::new()` — the infinite manager. -/
def timeManagerNew : TimeManager :=
  { softLimit := U64_MAX, hardLimit := U64_MAX, moveOverhead := 10, infinite := true }

/-- The moves-to-go estimate tiers of `from_limits` (no explicit movestogo). -/
def mtgEstimate (available : Nat) : Nat :=
  if available > 300000 then 40
  else if available > 120000 then 30
  else if available > 60000 then 25
  else if available > 30000 then 20
  else if available > 10000 then 15
  else 10

/-- `TimeManager::from_limits`.  `u64::saturating_sub` is `Nat` subtraction
and `u64` division is `Nat` division. -/
def timeManagerFromLimits (limits : SearchLimits) (side : Color) : TimeManager :=
  if limits.infinite then timeManagerNew
  else
    let moveOverhead := limits.moveOverhead
    match limits.movetime with
    | some mt =>
        let available := mt - moveOverhead
        let soft := available * 92 / 100
        let hard := available * 98 / 100
        { softLimit := max soft 1, hardLimit := max hard 1,
          moveOverhead := moveOverhead, infinite := false }
    | none =>
        let timeInc : Option Nat × Option Nat :=
          match side with
          | .White => (limits.wtime, limits.winc)
          | .Black => (limits.btime, limits.binc)
        match timeInc.1 with
        | some time =>
            let inc := timeInc.2.getD 0
            let available := time - moveOverhead
            let mtg := max (match limits.movestogo with
                            | some movestogo => movestogo
                            | none => mtgEstimate available) 1
            let baseTime := available / mtg
            let incBonus := inc * 85 / 100
            let soft := min (baseTime + incBonus) (available / 3)
            let hard := max (min (soft * 3) (available / 2)) soft
            let soft2 := max soft 100
            let hard2 := max hard 200
            { softLimit := soft2, hardLimit := hard2,
              moveOverhead := moveOverhead, infinite := false }
        | none =>
            { softLimit := U64_MAX, hardLimit := U64_MAX,
              moveOverhead := moveOverhead, infinite := true }

/-! ## Attack tables

Modelled from the spec (§4.3): "Attacker detection uses the collaborator's
attack tables for knight/king/bishop/rook/queen/pawn" — the `movegen`
crate's attack functions, given standard chess attack semantics on
0..63 squares. -/

/-- Step from a square by a (file, rank) delta; `none` when off the board. -/
def shiftSq (sq : Nat) (df dr : Int) : Option Nat :=
  let f : Int := (sq % 8 : Nat) + df
  let r : Int := (sq / 8 : Nat) + dr
  if 0 ≤ f ∧ f < 8 ∧ 0 ≤ r ∧ r < 8 then some (r * 8 + f).toNat else none

/-- Accumulate the bit of a stepped-to square into a mask. -/
def addStep (acc : Nat) (sq : Nat) (d : Int × Int) : Nat :=
  match shiftSq sq d.1 d.2 with
  | some t => acc ||| (1 <<< t)
  | none => acc

/-- Mask of squares a set of deltas reaches from `sq`. -/
def leaperAttacks (deltas : List (Int × Int)) (sq : Nat) : Nat :=
  deltas.foldl (fun acc d => addStep acc sq d) 0

/-- `knight_attacks`. -/
def knightAttacks (sq : Nat) : Nat :=
  leaperAttacks [(1, 2), (2, 1), (2, -1), (1, -2), (-1, -2), (-2, -1), (-2, 1), (-1, 2)] sq

/-- `king_attacks`. -/
def kingAttacks (sq : Nat) : Nat :=
  leaperAttacks [(1, 0), (1, 1), (0, 1), (-1, 1), (-1, 0), (-1, -1), (0, -1), (1, -1)] sq

/-- `pawn_attacks(color, sq)`: the two diagonal capture squares. -/
def pawnAttacks (c : Color) (sq : Nat) : Nat :=
  match c with
  | .White => leaperAttacks [(-1, 1), (1, 1)] sq
  | .Black => leaperAttacks [(-1, -1), (1, -1)] sq

/-- Walk one sliding ray from `sq`, stopping at (and including) the first
occupied square; `fuel` bounds the walk (7 steps suffice on an 8×8 board). -/
def rayWalk (occ : Nat) (df dr : Int) : Nat → Nat → Nat → Nat
  | 0, _, acc => acc
  | fuel + 1, cur, acc =>
      match shiftSq cur df dr with
      | none => acc
      | some t =>
          let acc := acc ||| (1 <<< t)
          if occ.testBit t then acc else rayWalk occ df dr fuel t acc

/-- One full ray of sliding attacks through occupancy `occ`. -/
def rayAttacks (sq : Nat) (df dr : Int) (occ : Nat) : Nat :=
  rayWalk occ df dr 7 sq 0

/-- `bishop_attacks(sq, occupied)`. -/
def bishopAttacks (sq : Nat) (occ : Nat) : Nat :=
  rayAttacks sq 1 1 occ ||| rayAttacks sq 1 (-1) occ |||
  rayAttacks sq (-1) 1 occ ||| rayAttacks sq (-1) (-1) occ

/-- `rook_attacks(sq, occupied)`. -/
def rookAttacks (sq : Nat) (occ : Nat) : Nat :=
  rayAttacks sq 1 0 occ ||| rayAttacks sq (-1) 0 occ |||
  rayAttacks sq 0 1 occ ||| rayAttacks sq 0 (-1) occ

/-! ## Static exchange evaluation (`src/search/see.rs`)

The Rust `see_captured` writes into a fixed `[i32; 32]` gains stack; an
out-of-bounds write would panic, so the model returns `none` exactly where
that write would be out of bounds. -/

/-- `SEE_VALUES` / `see_piece_value`: P, N, B, R, Q, K. -/
def seePieceValue : Piece → Int
  | .Pawn => 100 | .Knight => 300 | .Bishop => 300
  | .Rook => 500 | .Queen => 900 | .King => 20000

/-- `get_piece_attacks`: attackers of `target` of one piece type of `side`,
restricted to the current occupancy. -/
def getPieceAttacks (b : Board) (target : Nat) (piece : Piece) (side : Color)
    (occupied : Nat) : Nat :=
  let ourPieces := b.pieceBB piece &&& b.colorBB side &&& occupied
  match piece with
  | .Pawn => ourPieces &&& pawnAttacks side.flip target
  | .Knight => ourPieces &&& knightAttacks target
  | .Bishop => ourPieces &&& bishopAttacks target occupied
  | .Rook => ourPieces &&& rookAttacks target occupied
  | .Queen => ourPieces &&& (bishopAttacks target occupied ||| rookAttacks target occupied)
  | .King => ourPieces &&& kingAttacks target

/-- `get_lva`: least-valuable attacker, scanned P, N, B, R, Q, K. -/
def getLva (b : Board) (sq : Nat) (side : Color) (occupied : Nat) :
    Option (Nat × Piece) :=
  [Piece.Pawn, Piece.Knight, Piece.Bishop, Piece.Rook, Piece.Queen, Piece.King].findSome?
    fun piece =>
      if getPieceAttacks b sq piece side occupied ≠ 0 then
        some (lsb64 (getPieceAttacks b sq piece side occupied), piece)
      else none

/-- The swap-off loop of `see_captured`: each iteration removes the chosen
attacker from occupancy, records the value of the last piece that took on
the gains stack (`none` when the write index would reach 32), and switches
side; a king capture ends the sequence. -/
def seeLoop (b : Board) (toSq : Nat) (occupied : Nat) (side : Color)
    (lastValue : Int) (depth : Nat) (gains : Nat → Int) :
    Option ((Nat → Int) × Nat) :=
  match getLva b toSq side occupied with
  | none => some (gains, depth)
  | some (sq, piece) =>
      if h : depth < 32 then
        let occupied2 := occupied ^^^ (1 <<< sq)
        let gains2 := fun i => if i = depth then lastValue else gains i
        if piece = .King then some (gains2, depth + 1)
        else seeLoop b toSq occupied2 side.flip (seePieceValue piece) (depth + 1) gains2
      else none
termination_by 32 - depth

/-- The back-fold `gain[d−1] ← max(gain[d−1], −gain[d])` for `d = top..1`. -/
def seeFoldBack (gains : Nat → Int) : Nat → (Nat → Int)
  | 0 => gains
  | 1 => gains
  | d + 2 =>
      seeFoldBack (fun i => if i = d then max (gains d) (-(gains (d + 1))) else gains i)
        (d + 1)

/-- The exchange simulation of `see_captured` after the attacker piece and
seed gain are known: promotion delta, seed `gains[0]`, remove the mover from
occupancy, run the swap-off loop, fold back, return `gains[0]`. -/
def seeRun (b : Board) (mv : Move) (attackerPiece : Piece) (gain0 : Int) : Option Int :=
  let gain := match mv.flag.promotionPiece with
    | some promo => gain0 + seePieceValue promo - seePieceValue .Pawn
    | none => gain0
  let gains : Nat → Int := fun i => if i = 0 then gain else 0
  let occupied := b.occupied ^^^ (1 <<< mv.fromSq)
  (seeLoop b mv.toSq occupied b.turn.flip (seePieceValue attackerPiece) 1 gains).map
    fun gd => seeFoldBack gd.1 gd.2 0

/-- `see_captured(board, mv, victim)`: 0 for a non-capture unless the mover
is a pawn, in which case an en-passant pawn capture is assumed. -/
def seeCaptured (b : Board) (mv : Move) (victim : Option Piece) : Option Int :=
  match (b.pieceAt mv.fromSq).map Prod.fst, victim with
  | none, _ => some 0
  | some a, some v => seeRun b mv a (seePieceValue v)
  | some a, none =>
      if a = .Pawn then seeRun b mv a (seePieceValue .Pawn) else some 0

/-- `see(board, mv)`: victim looked up at the destination square. -/
def see (b : Board) (mv : Move) : Option Int :=
  seeCaptured b mv ((b.pieceAt mv.toSq).map Prod.fst)

/-- `see_ge(board, mv, threshold)`. -/
def seeGe (b : Board) (mv : Move) (threshold : Int) : Option Bool :=
  (see b mv).map (threshold ≤ ·)

/-- `is_good_capture(board, mv)`. -/
def isGoodCapture (b : Board) (mv : Move) : Option Bool := seeGe b mv 0

/-! ## Move ordering (`src/search/ordering.rs`) -/

/-- Modelled from the spec: `piece_value` of the repository's `types` module
(not among the sources); centipawn values consistent with the delta-pruning
and endgame tables of the sources (`qsearch.rs`, `endgame.rs`):
P 100, N 320, B 330, R 500, Q 900, K 0. -/
def pieceValue : Piece → Int
  | .Pawn => 100 | .Knight => 320 | .Bishop => 330
  | .Rook => 500 | .Queen => 900 | .King => 0

def TT_MOVE_BONUS : Int := 1000000
def PROMOTION_BONUS : Int := 100000
def CAPTURE_BONUS : Int := 50000
def KILLER_0_BONUS : Int := 40000
def KILLER_1_BONUS : Int := 35000

/-- `mvv_lva_score`. -/
def mvvLvaScore (b : Board) (m : Move) : Int :=
  match b.pieceOn m.toSq, b.pieceOn m.fromSq with
  | some v, some a => pieceValue v * 10 - pieceValue a
  | _, _ => 0

/-- `score_move`: TT move, then promotion / capture / killer bonuses.
The killers pair is `[Option<Move>; 2]` as slots 0 and 1. -/
def scoreMove (b : Board) (m : Move) (ttMove : Option Move)
    (killers : Option Move × Option Move) : Int :=
  if ttMove = some m then TT_MOVE_BONUS
  else
    let score : Int := 0
    let score := match m.getPromotion with
      | some promo => score + pieceValue promo + PROMOTION_BONUS
      | none => score
    if (b.pieceOn m.toSq).isSome then
      score + mvvLvaScore b m + CAPTURE_BONUS
    else
      if killers.1 = some m then score + KILLER_0_BONUS
      else if killers.2 = some m then score + KILLER_1_BONUS
      else score

/-- `order_moves_with_tt_and_killers`: score each move and stably sort the
list in descending score (Rust `sort_by(|a, b| b.1.cmp(&a.1))`). -/
def orderMovesWithTTAndKillers (b : Board) (moves : List Move)
    (ttMove : Option Move) (killers : Option Move × Option Move) : List Move :=
  (((moves.map fun m => (m, scoreMove b m ttMove killers)).mergeSort
      fun x y => y.2 ≤ x.2).map Prod.fst)

/-! ## NNUE accumulator adapter (`src/eval/nnue.rs`)

The `SfHalfKpState` of the `nnue` crate is external; modelled from the spec
(§3, §4.7): the accumulator is the pair of king squares fixed at creation
plus a feature count per (piece, color, square).  The adapter mirrors every
`add`/`sub` into both perspectives with identical arguments, so one count
function models both. -/

structure NnueAccumulator where
  wKing : Nat
  bKing : Nat
  feat : Piece → Color → Nat → Int

/-- `state.add(..)` on both perspectives. -/
def NnueAccumulator.add (a : NnueAccumulator) (p : Piece) (c : Color) (sq : Nat) :
    NnueAccumulator :=
  { a with feat := fun p2 c2 sq2 =>
      if p2 = p ∧ c2 = c ∧ sq2 = sq then a.feat p2 c2 sq2 + 1 else a.feat p2 c2 sq2 }

/-- `state.sub(..)` on both perspectives. -/
def NnueAccumulator.sub (a : NnueAccumulator) (p : Piece) (c : Color) (sq : Nat) :
    NnueAccumulator :=
  { a with feat := fun p2 c2 sq2 =>
      if p2 = p ∧ c2 = c ∧ sq2 = sq then a.feat p2 c2 sq2 - 1 else a.feat p2 c2 sq2 }

/-- `find_king_square`: first square of the king bitboard, E1 (= 4) as the
fallback when there is none. -/
def findKingSquare (b : Board) (c : Color) : Nat :=
  match bbSquares (b.pieceBB .King &&& b.colorBB c) with
  | s :: _ => s
  | [] => 4

/-- `create_state`: fix both king squares, then add every non-king piece. -/
def createState (b : Board) : NnueAccumulator :=
  let init : NnueAccumulator :=
    { wKing := findKingSquare b .White, bKing := findKingSquare b .Black,
      feat := fun _ _ _ => 0 }
  [Piece.Pawn, Piece.Knight, Piece.Bishop, Piece.Rook, Piece.Queen].foldl
    (fun acc p =>
      [Color.White, Color.Black].foldl
        (fun acc c =>
          (bbSquares (b.pieceBB p &&& b.colorBB c)).foldl
            (fun acc sq => acc.add p c sq) acc)
        acc)
    init

/-- `update_state_for_move(state, board_before, mv) -> bool`: feature delta
of the move; `false` (state untouched) when the from-square is empty or the
king moves. -/
def updateStateForMove (state : NnueAccumulator) (b : Board) (mv : Move) :
    NnueAccumulator × Bool :=
  match b.pieceAt mv.fromSq with
  | none => (state, false)
  | some (movingPiece, movingColor) =>
      if movingPiece = .King then (state, false)
      else
        let captured := (b.pieceAt mv.toSq).map Prod.fst
        let state := state.sub movingPiece movingColor mv.fromSq
        let state := match captured with
          | some capturedPiece =>
              if capturedPiece ≠ .King then
                state.sub capturedPiece movingColor.flip mv.toSq
              else state
          | none => state
        let state :=
          if movingPiece = .Pawn ∧ mv.flag = .EnPassant then
            let epSq := if movingColor = .White then 4 * 8 + mv.toSq % 8
                        else 3 * 8 + mv.toSq % 8
            state.sub .Pawn movingColor.flip epSq
          else state
        let finalPiece := match mv.flag.promotionPiece with
          | some promo => promo
          | none => movingPiece
        let state := state.add finalPiece movingColor mv.toSq
        let isCastling := mv.flag = .KingCastle ∨ mv.flag = .QueenCastle
        let state :=
          if isCastling then
            let rank := mv.fromSq / 8
            let rookFromTo :=
              if mv.flag = .KingCastle then (rank * 8 + 7, rank * 8 + 5)
              else (rank * 8 + 0, rank * 8 + 3)
            ((state.sub .Rook movingColor rookFromTo.1).add .Rook movingColor rookFromTo.2)
          else state
        (state, true)

/-- The child-evaluator preparation step of quiescence
(`qsearch.rs:161-162`): clone the evaluator, call `update_move` on the
position before the move — and discard its boolean result.  No `refresh`
follows before the child is evaluated. -/
def quiescenceChildEvaluator (state : NnueAccumulator) (b : Board) (mv : Move) :
    NnueAccumulator :=
  (updateStateForMove state b mv).1

/-! ## Hand-crafted evaluation (`src/eval/hce.rs`)

The packed score `S` holds two `i16` components with wrapping arithmetic. -/

/-- The packed middlegame/endgame score `S`. -/
structure SS where
  mg : Int
  eg : Int
deriving DecidableEq, Repr

/-- `S + S` (`i16::wrapping_add` on both components). -/
def SS.addW (a b : SS) : SS := ⟨wrap16 (a.mg + b.mg), wrap16 (a.eg + b.eg)⟩

/-- `S - S` (`i16::wrapping_sub` on both components). -/
def SS.subW (a b : SS) : SS := ⟨wrap16 (a.mg - b.mg), wrap16 (a.eg - b.eg)⟩

/-- `PIECE_VALUES` of hce.rs (MG, EG). -/
def hcePieceValues : Piece → SS
  | .Pawn => ⟨100, 120⟩ | .Knight => ⟨320, 300⟩ | .Bishop => ⟨330, 320⟩
  | .Rook => ⟨500, 550⟩ | .Queen => ⟨950, 1000⟩ | .King => ⟨0, 0⟩

def BISHOP_PAIR : SS := ⟨35, 50⟩

def pstPawn : List SS :=
  [⟨0,0⟩,⟨0,0⟩,⟨0,0⟩,⟨0,0⟩,⟨0,0⟩,⟨0,0⟩,⟨0,0⟩,⟨0,0⟩,
   ⟨5,5⟩,⟨10,5⟩,⟨10,5⟩,⟨-20,5⟩,⟨-20,5⟩,⟨10,5⟩,⟨10,5⟩,⟨5,5⟩,
   ⟨5,10⟩,⟨-5,10⟩,⟨-10,10⟩,⟨0,10⟩,⟨0,10⟩,⟨-10,10⟩,⟨-5,10⟩,⟨5,10⟩,
   ⟨0,25⟩,⟨0,25⟩,⟨0,25⟩,⟨20,25⟩,⟨20,25⟩,⟨0,25⟩,⟨0,25⟩,⟨0,25⟩,
   ⟨5,40⟩,⟨5,40⟩,⟨10,40⟩,⟨25,40⟩,⟨25,40⟩,⟨10,40⟩,⟨5,40⟩,⟨5,40⟩,
   ⟨10,60⟩,⟨10,60⟩,⟨20,60⟩,⟨30,60⟩,⟨30,60⟩,⟨20,60⟩,⟨10,60⟩,⟨10,60⟩,
   ⟨50,100⟩,⟨50,100⟩,⟨50,100⟩,⟨50,100⟩,⟨50,100⟩,⟨50,100⟩,⟨50,100⟩,⟨50,100⟩,
   ⟨0,0⟩,⟨0,0⟩,⟨0,0⟩,⟨0,0⟩,⟨0,0⟩,⟨0,0⟩,⟨0,0⟩,⟨0,0⟩]

def pstKnight : List SS :=
  [⟨-50,-50⟩,⟨-40,-40⟩,⟨-30,-30⟩,⟨-30,-30⟩,⟨-30,-30⟩,⟨-30,-30⟩,⟨-40,-40⟩,⟨-50,-50⟩,
   ⟨-40,-40⟩,⟨-20,-20⟩,⟨0,0⟩,⟨5,5⟩,⟨5,5⟩,⟨0,0⟩,⟨-20,-20⟩,⟨-40,-40⟩,
   ⟨-30,-30⟩,⟨5,5⟩,⟨10,10⟩,⟨15,15⟩,⟨15,15⟩,⟨10,10⟩,⟨5,5⟩,⟨-30,-30⟩,
   ⟨-30,-30⟩,⟨0,0⟩,⟨15,15⟩,⟨20,20⟩,⟨20,20⟩,⟨15,15⟩,⟨0,0⟩,⟨-30,-30⟩,
   ⟨-30,-30⟩,⟨5,5⟩,⟨15,15⟩,⟨20,20⟩,⟨20,20⟩,⟨15,15⟩,⟨5,5⟩,⟨-30,-30⟩,
   ⟨-30,-30⟩,⟨0,0⟩,⟨10,10⟩,⟨15,15⟩,⟨15,15⟩,⟨10,10⟩,⟨0,0⟩,⟨-30,-30⟩,
   ⟨-40,-40⟩,⟨-20,-20⟩,⟨0,0⟩,⟨0,0⟩,⟨0,0⟩,⟨0,0⟩,⟨-20,-20⟩,⟨-40,-40⟩,
   ⟨-50,-50⟩,⟨-40,-40⟩,⟨-30,-30⟩,⟨-30,-30⟩,⟨-30,-30⟩,⟨-30,-30⟩,⟨-40,-40⟩,⟨-50,-50⟩]

def pstBishop : List SS :=
  [⟨-20,-20⟩,⟨-10,-10⟩,⟨-10,-10⟩,⟨-10,-10⟩,⟨-10,-10⟩,⟨-10,-10⟩,⟨-10,-10⟩,⟨-20,-20⟩,
   ⟨-10,-10⟩,⟨5,0⟩,⟨0,0⟩,⟨0,0⟩,⟨0,0⟩,⟨0,0⟩,⟨5,0⟩,⟨-10,-10⟩,
   ⟨-10,-10⟩,⟨10,10⟩,⟨10,10⟩,⟨10,10⟩,⟨10,10⟩,⟨10,10⟩,⟨10,10⟩,⟨-10,-10⟩,
   ⟨-10,-10⟩,⟨0,0⟩,⟨10,10⟩,⟨10,10⟩,⟨10,10⟩,⟨10,10⟩,⟨0,0⟩,⟨-10,-10⟩,
   ⟨-10,-10⟩,⟨5,5⟩,⟨5,5⟩,⟨10,10⟩,⟨10,10⟩,⟨5,5⟩,⟨5,5⟩,⟨-10,-10⟩,
   ⟨-10,-10⟩,⟨0,0⟩,⟨5,5⟩,⟨10,10⟩,⟨10,10⟩,⟨5,5⟩,⟨0,0⟩,⟨-10,-10⟩,
   ⟨-10,-10⟩,⟨0,0⟩,⟨0,0⟩,⟨0,0⟩,⟨0,0⟩,⟨0,0⟩,⟨0,0⟩,⟨-10,-10⟩,
   ⟨-20,-20⟩,⟨-10,-10⟩,⟨-10,-10⟩,⟨-10,-10⟩,⟨-10,-10⟩,⟨-10,-10⟩,⟨-10,-10⟩,⟨-20,-20⟩]

def pstRook : List SS :=
  [⟨0,0⟩,⟨0,0⟩,⟨0,5⟩,⟨5,5⟩,⟨5,5⟩,⟨0,5⟩,⟨0,0⟩,⟨0,0⟩,
   ⟨-5,-5⟩,⟨0,0⟩,⟨0,0⟩,⟨0,0⟩,⟨0,0⟩,⟨0,0⟩,⟨0,0⟩,⟨-5,-5⟩,
   ⟨-5,-5⟩,⟨0,0⟩,⟨0,0⟩,⟨0,0⟩,⟨0,0⟩,⟨0,0⟩,⟨0,0⟩,⟨-5,-5⟩,
   ⟨-5,-5⟩,⟨0,0⟩,⟨0,0⟩,⟨0,0⟩,⟨0,0⟩,⟨0,0⟩,⟨0,0⟩,⟨-5,-5⟩,
   ⟨-5,-5⟩,⟨0,0⟩,⟨0,0⟩,⟨0,0⟩,⟨0,0⟩,⟨0,0⟩,⟨0,0⟩,⟨-5,-5⟩,
   ⟨-5,-5⟩,⟨0,0⟩,⟨0,0⟩,⟨0,0⟩,⟨0,0⟩,⟨0,0⟩,⟨0,0⟩,⟨-5,-5⟩,
   ⟨5,10⟩,⟨10,10⟩,⟨10,10⟩,⟨10,10⟩,⟨10,10⟩,⟨10,10⟩,⟨10,10⟩,⟨5,10⟩,
   ⟨0,0⟩,⟨0,0⟩,⟨0,0⟩,⟨0,0⟩,⟨0,0⟩,⟨0,0⟩,⟨0,0⟩,⟨0,0⟩]

def pstQueen : List SS :=
  [⟨-20,-20⟩,⟨-10,-10⟩,⟨-10,-10⟩,⟨-5,-5⟩,⟨-5,-5⟩,⟨-10,-10⟩,⟨-10,-10⟩,⟨-20,-20⟩,
   ⟨-10,-10⟩,⟨0,0⟩,⟨5,0⟩,⟨0,0⟩,⟨0,0⟩,⟨0,0⟩,⟨0,0⟩,⟨-10,-10⟩,
   ⟨-10,-10⟩,⟨5,5⟩,⟨5,5⟩,⟨5,5⟩,⟨5,5⟩,⟨5,5⟩,⟨0,5⟩,⟨-10,-10⟩,
   ⟨0,-5⟩,⟨0,0⟩,⟨5,5⟩,⟨5,5⟩,⟨5,5⟩,⟨5,5⟩,⟨0,0⟩,⟨-5,-5⟩,
   ⟨-5,-5⟩,⟨0,0⟩,⟨5,5⟩,⟨5,5⟩,⟨5,5⟩,⟨5,5⟩,⟨0,0⟩,⟨-5,-5⟩,
   ⟨-10,-10⟩,⟨0,0⟩,⟨5,5⟩,⟨5,5⟩,⟨5,5⟩,⟨5,5⟩,⟨0,0⟩,⟨-10,-10⟩,
   ⟨-10,-10⟩,⟨0,0⟩,⟨0,0⟩,⟨0,0⟩,⟨0,0⟩,⟨0,0⟩,⟨0,0⟩,⟨-10,-10⟩,
   ⟨-20,-20⟩,⟨-10,-10⟩,⟨-10,-10⟩,⟨-5,-5⟩,⟨-5,-5⟩,⟨-10,-10⟩,⟨-10,-10⟩,⟨-20,-20⟩]

def pstKing : List SS :=
  [⟨20,-50⟩,⟨30,-30⟩,⟨10,-30⟩,⟨0,-30⟩,⟨0,-30⟩,⟨10,-30⟩,⟨30,-30⟩,⟨20,-50⟩,
   ⟨20,-30⟩,⟨20,-30⟩,⟨0,0⟩,⟨0,0⟩,⟨0,0⟩,⟨0,0⟩,⟨20,-30⟩,⟨20,-30⟩,
   ⟨-10,-30⟩,⟨-20,-10⟩,⟨-20,20⟩,⟨-20,30⟩,⟨-20,30⟩,⟨-20,20⟩,⟨-20,-10⟩,⟨-10,-30⟩,
   ⟨-20,-30⟩,⟨-30,-10⟩,⟨-30,30⟩,⟨-40,40⟩,⟨-40,40⟩,⟨-30,30⟩,⟨-30,-10⟩,⟨-20,-30⟩,
   ⟨-30,-30⟩,⟨-40,-10⟩,⟨-40,30⟩,⟨-50,40⟩,⟨-50,40⟩,⟨-40,30⟩,⟨-40,-10⟩,⟨-30,-30⟩,
   ⟨-30,-30⟩,⟨-40,-10⟩,⟨-40,20⟩,⟨-50,30⟩,⟨-50,30⟩,⟨-40,20⟩,⟨-40,-10⟩,⟨-30,-30⟩,
   ⟨-30,-30⟩,⟨-40,-20⟩,⟨-40,-10⟩,⟨-50,0⟩,⟨-50,0⟩,⟨-40,-10⟩,⟨-40,-20⟩,⟨-30,-30⟩,
   ⟨-30,-50⟩,⟨-40,-40⟩,⟨-40,-30⟩,⟨-50,-20⟩,⟨-50,-20⟩,⟨-40,-30⟩,⟨-40,-40⟩,⟨-30,-50⟩]

/-- `PST[piece][square]`. -/
def pst (p : Piece) (sq : Nat) : SS :=
  (match p with
   | .Pawn => pstPawn | .Knight => pstKnight | .Bishop => pstBishop
   | .Rook => pstRook | .Queen => pstQueen | .King => pstKing).getD sq ⟨0, 0⟩

/-- `PASSED_MASK_WHITE[sq]`: file and adjacent files on all ranks above. -/
def passedMaskWhite (sq : Nat) : Nat :=
  let file := sq % 8
  let rank := sq / 8
  (List.range 8).foldl
    (fun mask r =>
      if rank + 1 ≤ r then
        let mask := mask ||| (1 <<< (r * 8 + file))
        let mask := if 0 < file then mask ||| (1 <<< (r * 8 + file - 1)) else mask
        if file < 7 then mask ||| (1 <<< (r * 8 + file + 1)) else mask
      else mask)
    0

/-- `PASSED_MASK_BLACK[sq]`: file and adjacent files on all ranks below. -/
def passedMaskBlack (sq : Nat) : Nat :=
  let file := sq % 8
  let rank := sq / 8
  (List.range 8).foldl
    (fun mask r =>
      if r < rank then
        let mask := mask ||| (1 <<< (r * 8 + file))
        let mask := if 0 < file then mask ||| (1 <<< (r * 8 + file - 1)) else mask
        if file < 7 then mask ||| (1 <<< (r * 8 + file + 1)) else mask
      else mask)
    0

/-- `PASSED_BONUS[rank]`. -/
def passedBonusTable (rank : Nat) : SS :=
  [(⟨0, 0⟩ : SS), ⟨5, 10⟩, ⟨10, 20⟩, ⟨20, 40⟩, ⟨40, 70⟩, ⟨70, 120⟩, ⟨120, 200⟩,
   ⟨0, 0⟩].getD rank ⟨0, 0⟩

def PHASE_TOTAL : Int := 24

/-- `calculate_phase`: 0 = opening material present, 256 = bare endgame. -/
def calculatePhase (b : Board) : Int :=
  let n : Int := popcount64 (b.pieceBB .Knight)
  let bp : Int := popcount64 (b.pieceBB .Bishop)
  let r : Int := popcount64 (b.pieceBB .Rook)
  let q : Int := popcount64 (b.pieceBB .Queen)
  let material := n + bp + 2 * r + 4 * q
  let phase := PHASE_TOTAL - material
  if phase < 0 then 0
  else if phase > PHASE_TOTAL then 256
  else (phase * 256).tdiv 24

/-- `eval_passed_pawns::<IS_WHITE>`. -/
def evalPassedPawns (b : Board) (isWhite : Bool) : SS :=
  let color := if isWhite then Color.White else Color.Black
  let ourPawns := b.pieceBB .Pawn &&& b.colorBB color
  let enemyPawns := b.pieceBB .Pawn &&& b.colorBB color.flip
  (bbSquares ourPawns).foldl
    (fun bonus sq =>
      let mask := if isWhite then passedMaskWhite sq else passedMaskBlack sq
      if enemyPawns &&& mask = 0 then
        let rank := if isWhite then sq / 8 else 7 - sq / 8
        bonus.addW (passedBonusTable rank)
      else bonus)
    (⟨0, 0⟩ : SS)

/-- `eval_side::<IS_WHITE>`: material + PST in one bitboard pass, bishop
pair, passed pawns.  Black squares are flipped with XOR 56. -/
def evalSide (b : Board) (isWhite : Bool) : SS :=
  let color := if isWhite then Color.White else Color.Black
  let score :=
    [(Piece.Pawn, 0), (Piece.Knight, 1), (Piece.Bishop, 2),
     (Piece.Rook, 3), (Piece.Queen, 4), (Piece.King, 5)].foldl
      (fun score pieceIdx =>
        (bbSquares (b.pieceBB pieceIdx.1 &&& b.colorBB color)).foldl
          (fun score sq =>
            let sqIdx := if isWhite then sq else sq ^^^ 56
            let score := if pieceIdx.2 < 5 then score.addW (hcePieceValues pieceIdx.1)
                         else score
            score.addW (pst pieceIdx.1 sqIdx))
          score)
      (⟨0, 0⟩ : SS)
  let bishops := b.pieceBB .Bishop &&& b.colorBB color
  let score := if 2 ≤ popcount64 bishops then score.addW BISHOP_PAIR else score
  score.addW (evalPassedPawns b isWhite)

/-- `CENTER_DIST[sq]` of hce.rs. -/
def hceCenterDist (sq : Nat) : Int :=
  let file : Int := sq % 8
  let rank : Int := sq / 8
  (if file < 4 then 3 - file else file - 4) + (if rank < 4 then 3 - rank else rank - 4)

/-- `CORNER_DIST[sq]` of hce.rs. -/
def hceCornerDist (sq : Nat) : Int :=
  let file : Int := sq % 8
  let rank : Int := sq / 8
  (if file < 4 then file else 7 - file) + (if rank < 4 then rank else 7 - rank)

/-- `KING_DIST[sq1][sq2]` of hce.rs (Chebyshev distance). -/
def hceKingDist (sq1 sq2 : Nat) : Int :=
  let f1 : Int := sq1 % 8
  let r1 : Int := sq1 / 8
  let f2 : Int := sq2 % 8
  let r2 : Int := sq2 / 8
  max (if f1 > f2 then f1 - f2 else f2 - f1) (if r1 > r2 then r1 - r2 else r2 - r1)

/-- `material_balance` of hce.rs. -/
def hceMaterialBalance (b : Board) : Int :=
  [(Piece.Pawn, (100 : Int)), (Piece.Knight, 320), (Piece.Bishop, 330),
   (Piece.Rook, 500), (Piece.Queen, 900)].foldl
    (fun score pv =>
      let white : Int := popcount64 (b.pieceBB pv.1 &&& b.colorBB .White)
      let black : Int := popcount64 (b.pieceBB pv.1 &&& b.colorBB .Black)
      score + pv.2 * (white - black))
    0

/-- `endgame_bonuses` of hce.rs: king corner/edge driving and proximity,
scaled by `(phase − 128)/128`, on the endgame component only. -/
def hceEndgameBonuses (b : Board) (phase : Int) : SS :=
  let scale := phase - 128
  let material := hceMaterialBalance b
  if |material| < 100 then ⟨0, 0⟩
  else
    let colors := if material > 0 then (Color.White, Color.Black)
                  else (Color.Black, Color.White)
    let winnerSq := b.kingSquare colors.1
    let loserSq := b.kingSquare colors.2
    let cornerBonus := (6 - hceCornerDist loserSq) * 8
    let edgeBonus := hceCenterDist loserSq * 6
    let proximityBonus := (7 - hceKingDist winnerSq loserSq) * 5
    let totalBonus := cornerBonus + edgeBonus + proximityBonus
    let scaled := (totalBonus * scale).tdiv 128
    if material > 0 then ⟨0, wrap16 scaled⟩ else ⟨0, wrap16 (-(wrap16 scaled))⟩

/-- `hce::evaluate`: tapered MG/EG blend from white's perspective, endgame
bonuses when `phase > 128`, negated for black to move (`Score::cp` casts the
i32 result to i16, hence `wrap16`). -/
def hceEvaluate (b : Board) : Int :=
  let phase := calculatePhase b
  let whiteScore := evalSide b true
  let blackScore := evalSide b false
  let score := whiteScore.subW blackScore
  let score := if phase > 128 then score.addW (hceEndgameBonuses b phase) else score
  let tapered := (score.mg * (256 - phase) + score.eg * phase).tdiv 256
  if b.turn = .White then wrap16 tapered else wrap16 (-tapered)

/-! ## Endgame evaluation (`src/eval/endgame.rs`) -/

def USE_ENDGAME_EVAL : Bool := true
def ENDGAME_PIECE_THRESHOLD : Nat := 6
def MATERIAL_ADVANTAGE_THRESHOLD : Int := 150

/-- `material_balance` of endgame.rs. -/
def endgameMaterialBalance (b : Board) : Int :=
  [(Piece.Pawn, (100 : Int)), (Piece.Knight, 320), (Piece.Bishop, 330),
   (Piece.Rook, 500), (Piece.Queen, 900)].foldl
    (fun score pv =>
      let white : Int := popcount64 (b.pieceBB pv.1 &&& b.colorBB .White)
      let black : Int := popcount64 (b.pieceBB pv.1 &&& b.colorBB .Black)
      score + pv.2 * (white - black))
    0

/-- `should_use_endgame`: ≤ 3 non-pawn/king pieces, or ≤ 6 of them with a
material imbalance of at least 150 centipawns. -/
def shouldUseEndgame (b : Board) : Bool :=
  if !USE_ENDGAME_EVAL then false
  else
    let nonPawnKing := b.pieceBB .Knight ||| b.pieceBB .Bishop |||
                       b.pieceBB .Rook ||| b.pieceBB .Queen
    let pieceCount := popcount64 nonPawnKing
    if pieceCount ≤ 3 then true
    else if pieceCount ≤ ENDGAME_PIECE_THRESHOLD then
      MATERIAL_ADVANTAGE_THRESHOLD ≤ |endgameMaterialBalance b|
    else false

/-- `corner_distance` of endgame.rs. -/
def egCornerDistance (sq : Nat) : Int :=
  let file : Int := sq % 8
  let rank : Int := sq / 8
  min file (7 - file) + min rank (7 - rank)

/-- `center_distance` of endgame.rs. -/
def egCenterDistance (sq : Nat) : Int :=
  let file : Int := sq % 8
  let rank : Int := sq / 8
  min |file - 3| |file - 4| + min |rank - 3| |rank - 4|

/-- `king_distance` of endgame.rs (Chebyshev). -/
def egKingDistance (sq1 sq2 : Nat) : Int :=
  let f1 : Int := sq1 % 8
  let r1 : Int := sq1 / 8
  let f2 : Int := sq2 % 8
  let r2 : Int := sq2 / 8
  max |f1 - f2| |r1 - r2|

/-- `passed_pawn_bonus` of endgame.rs. -/
def egPassedPawnBonus (b : Board) (color : Color) : Int :=
  let pawns := b.pieceBB .Pawn &&& b.colorBB color
  let enemyPawns := b.pieceBB .Pawn &&& b.colorBB color.flip
  (bbSquares pawns).foldl
    (fun bonus sq =>
      let fileIdx := sq % 8
      let rankIdx := sq / 8
      let filesToCheck := [fileIdx - 1, fileIdx, min (fileIdx + 1) 7]
      let blockingMask := filesToCheck.foldl
        (fun mask f =>
          if color = .White then
            (List.range 8).foldl
              (fun m r => if rankIdx + 1 ≤ r then m ||| (1 <<< (r * 8 + f)) else m) mask
          else
            (List.range 8).foldl
              (fun m r => if r < rankIdx then m ||| (1 <<< (r * 8 + f)) else m) mask)
        0
      if enemyPawns &&& blockingMask = 0 then
        let advancement : Int := if color = .White then rankIdx else 7 - (rankIdx : Int)
        bonus + (if advancement = 6 then 200 else if advancement = 5 then 120
                 else if advancement = 4 then 60 else if advancement = 3 then 30
                 else if advancement = 2 then 15 else 5)
      else bonus)
    0

/-- The winning-side body of `endgame::evaluate` (material, corner/edge
driving, king proximity, passed pawns, anti-draw hash component, side to
move sign). -/
def endgameCore (b : Board) (material : Int) (winningSide : Color) : Int :=
  let losingSide := winningSide.flip
  let winnerKing := b.kingSquare winningSide
  let loserKing := b.kingSquare losingSide
  let materialMult : Int := if |material| > 300 then 2 else 1
  let score := material * materialMult
  let loserCornerDist := egCornerDistance loserKing
  let cornerBonus := (6 - loserCornerDist) * 40
  let cornerTrap : Int := if loserCornerDist = 0 then 100 else 0
  let kingDist := egKingDistance winnerKing loserKing
  let proximityBonus := (7 - kingDist) * 25
  let loserCenterDist := egCenterDistance loserKing
  let edgeBonus := loserCenterDist * 20
  let edgeTrap : Int := if 3 ≤ loserCenterDist then 50 else 0
  let winnerCenterDist := egCenterDistance winnerKing
  let centralization := (4 - winnerCenterDist) * 10
  let whitePassed := egPassedPawnBonus b .White
  let blackPassed := egPassedPawnBonus b .Black
  let passedDiff := whitePassed - blackPassed
  let sum := cornerBonus + cornerTrap + proximityBonus + edgeBonus + edgeTrap +
             centralization
  let endgameBonus := if winningSide = .White then sum else -sum
  let score := score + endgameBonus + passedDiff
  let hashComponent : Int := (b.hash % 11 : Nat) - 5
  let score := if |material| > 100 then score + hashComponent else score
  if b.turn = .White then wrap16 score else wrap16 (-score)

/-- `endgame::evaluate`: falls back to `hce::evaluate` when material is
within ±50 centipawns of equal. -/
def endgameEvaluate (b : Board) : Int :=
  let material := endgameMaterialBalance b
  if material > 50 then endgameCore b material .White
  else if material < -50 then endgameCore b material .Black
  else hceEvaluate b

/-! ## Evaluator dispatch (`src/eval/mod.rs`) -/

/-- `SearchEvaluator`: the NNUE variant's forward pass is the external
network; it is carried as an abstract evaluation function. -/
inductive EvaluatorVariant where
  | Nnue (evalFn : Board → Int)
  | Hce
  | Endgame
  | Material

/-- `material_eval` (white's perspective). -/
def materialEval (b : Board) : Int :=
  [Piece.Pawn, Piece.Knight, Piece.Bishop, Piece.Rook, Piece.Queen].foldl
    (fun score p =>
      let whiteCount : Int := popcount64 (b.pieceBB p &&& b.colorBB .White)
      let blackCount : Int := popcount64 (b.pieceBB p &&& b.colorBB .Black)
      score + pieceValue p * (whiteCount - blackCount))
    0

/-- `material_eval_wrapper`. -/
def materialEvalWrapper (b : Board) : Int :=
  let eval := materialEval b
  if b.turn = .White then wrap16 eval else wrap16 (-eval)

/-- `SearchEvaluator::evaluate`: automatic endgame switch, then dispatch on
the variant. -/
def searchEvaluatorEvaluate (v : EvaluatorVariant) (b : Board) : Int :=
  if USE_ENDGAME_EVAL && shouldUseEndgame b then endgameEvaluate b
  else
    match v with
    | .Nnue f => f b
    | .Hce => hceEvaluate b
    | .Endgame => endgameEvaluate b
    | .Material => materialEvalWrapper b

/-! # Theorems -/

/-! ## Helper lemmas -/

/-- `wrap16` is the identity on values already representable in `i16`. -/
theorem wrap16_eq_self {x : Int} (h1 : -32768 ≤ x) (h2 : x ≤ 32767) : wrap16 x = x := by
  have hm : (x + 32768) % 65536 = x + 32768 :=
    Int.emod_eq_of_lt (by omega) (by omega)
  unfold wrap16
  omega

/-! ## C2 — transposition-table generation -/

set_option maxRecDepth 4000 in
/-- C2: the claim says `new_search` advances the table's generation to
`(generation + 1) mod 64`, so after any number of searches it stays in
`[0, 64)` and equals the search count mod 64.  The code instead wraps the
`u8` counter mod 256 (`tt.rs:214`): after 64 `new_search` calls from a fresh
table the generation is 64, not 0, and a `TTEntry` freshly packed with that
generation (`tt.rs:77`, 6-bit age field) reports a generation different from
the table's — so `store`'s and `hashfull`'s equality tests against the
current generation can never succeed, contradicting the documented
depth-preferred replacement and aging.  This theorem evaluates the code at
that failing input. -/
theorem tt_generation_not_mod_64 :
    ttGenerationAfter 64 = 64 ∧
    64 % 64 = 0 ∧
    ¬ ttGenerationAfter 64 < 64 ∧
    ttEntryGeneration (ttEntryBoundAndAge 1 (ttGenerationAfter 64)) ≠
      ttGenerationAfter 64 := by
  refine ⟨?_, rfl, ?_, ?_⟩ <;> decide

/-! ## C3 — score TT round-trip -/

/-- C3 (counterexample): the claim quantifies over every score, but `Score`
is a raw `i16`; at `s = 32767` (a "mate" by the `≥ 30000` test) and
`ply = 1`, `to_tt` wraps `32767 + 1` to `-32768`, which `from_tt` then
treats as a "mated" score, returning `-32767 ≠ 32767`. -/
theorem score_roundtrip_counterexample :
    ((-32768 : Int) ≤ 32767 ∧ (32767 : Int) ≤ 32767 ∧
      (0 : Int) ≤ 1 ∧ (1 : Int) < MAX_PLY) ∧
    scoreFromTT (scoreToTT 32767 1) 1 = -32767 ∧
    scoreFromTT (scoreToTT 32767 1) 1 ≠ 32767 := by
  refine ⟨by decide, ?_, ?_⟩ <;> decide

/-- C3 (amended): for every ply in `[0, MAX_PLY)` and every score whose raw
value lies between `SCORE_NONE` (−32001) and `SCORE_INFINITY` (32000) — in
particular every constructible centipawn, mate, draw, infinity or none
value — `from_tt(ply)` exactly inverts `to_tt(ply)`.  Only raw values within
`ply` of the `i16` boundary (which no constructor produces) wrap and fail. -/
theorem score_roundtrip_amended (s ply : Int)
    (hlo : SCORE_NONE ≤ s) (hhi : s ≤ SCORE_INFINITY)
    (hp0 : 0 ≤ ply) (hpm : ply < MAX_PLY) :
    scoreFromTT (scoreToTT s ply) ply = s := by
  have hlo' : (-32001 : Int) ≤ s := hlo
  have hhi' : s ≤ 32000 := hhi
  have hpm' : ply < 128 := hpm
  by_cases hm : scoreIsMate s
  · have hms : (30000 : Int) ≤ s := by
      simpa [scoreIsMate, SCORE_MATE_IN_MAX, SCORE_MATE, decide_eq_true_eq] using hm
    have h1 : scoreToTT s ply = s + ply := by
      simp only [scoreToTT, hm, if_true]
      exact wrap16_eq_self (by omega) (by omega)
    have h2 : scoreIsMate (s + ply) := by
      simp [scoreIsMate, SCORE_MATE_IN_MAX, SCORE_MATE]
      omega
    simp only [h1, scoreFromTT, h2, if_true]
    exact (wrap16_eq_self (by omega) (by omega)).trans (by ring)
  · by_cases hmd : scoreIsMated s
    · have hms : s ≤ (-30000 : Int) := by
        simpa [scoreIsMated, SCORE_MATED_IN_MAX, SCORE_MATE, decide_eq_true_eq] using hmd
      have h1 : scoreToTT s ply = s - ply := by
        simp only [scoreToTT, hm, if_false, hmd, if_true]
        exact wrap16_eq_self (by omega) (by omega)
      have h2 : ¬ scoreIsMate (s - ply) := by
        simp [scoreIsMate, SCORE_MATE_IN_MAX, SCORE_MATE]
        omega
      have h3 : scoreIsMated (s - ply) := by
        simp [scoreIsMated, SCORE_MATED_IN_MAX, SCORE_MATE]
        omega
      simp only [h1, scoreFromTT, h2, if_false, h3, if_true]
      exact (wrap16_eq_self (by omega) (by omega)).trans (by ring)
    · have h1 : scoreToTT s ply = s := by
        simp [scoreToTT, hm, hmd]
      rw [h1]
      simp [scoreFromTT, hm, hmd]

/-- C3 witness: the amended round-trip at the concrete mate score 31000
(`mate_in(0)`) and ply 5. -/
theorem score_roundtrip_witness :
    (SCORE_NONE ≤ (31000 : Int) ∧ (31000 : Int) ≤ SCORE_INFINITY ∧
      (0 : Int) ≤ 5 ∧ (5 : Int) < MAX_PLY) ∧
    scoreFromTT (scoreToTT 31000 5) 5 = 31000 :=
  ⟨by decide,
   score_roundtrip_amended 31000 5 (by decide) (by decide) (by decide) (by decide)⟩

/-! ## C8 — fixed-movetime time manager -/

/-- C8: for a fixed-movetime search (no infinite flag), the time manager
derives `avail = movetime −sat overhead`, `soft = 92 % of avail`,
`hard = 98 % of avail`, each at least 1 ms. -/
theorem time_manager_movetime (limits : SearchLimits) (side : Color) (mt : Nat)
    (hmt : limits.movetime = some mt) (hinf : limits.infinite = false) :
    (timeManagerFromLimits limits side).softLimit =
      max ((mt - limits.moveOverhead) * 92 / 100) 1 ∧
    (timeManagerFromLimits limits side).hardLimit =
      max ((mt - limits.moveOverhead) * 98 / 100) 1 ∧
    (timeManagerFromLimits limits side).infinite = false := by
  simp [timeManagerFromLimits, hinf, hmt]

/-- Concrete limits `movetime 1000`, `move_overhead 50`. -/
def movetimeLimits1000 : SearchLimits :=
  { movetime := some 1000, wtime := none, btime := none, winc := none,
    binc := none, movestogo := none, infinite := false, moveOverhead := 50 }

/-- C8 witness: `movetime 1000` with overhead 50 yields soft = 874 ms and
hard = 931 ms. -/
theorem time_manager_movetime_witness :
    (movetimeLimits1000.movetime = some 1000 ∧ movetimeLimits1000.infinite = false) ∧
    (timeManagerFromLimits movetimeLimits1000 Color.White).softLimit = 874 ∧
    (timeManagerFromLimits movetimeLimits1000 Color.White).hardLimit = 931 := by
  obtain ⟨h1, h2, -⟩ := time_manager_movetime movetimeLimits1000 Color.White 1000 rfl rfl
  exact ⟨⟨rfl, rfl⟩, h1.trans (by decide), h2.trans (by decide)⟩

/-! ## C6 — history table stays bounded -/

/-- Truncated division by a positive `M` of a nonnegative dividend:
`M·q ≤ p < M·q + M`. -/
theorem tdiv_bounds_nonneg {p M : Int} (hM : 0 < M) (hp : 0 ≤ p) :
    M * p.tdiv M ≤ p ∧ p < M * p.tdiv M + M := by
  rw [Int.tdiv_eq_ediv hp hM.le]
  have h1 := Int.ediv_add_emod p M
  have h2 := Int.emod_nonneg p (by omega : M ≠ 0)
  have h3 := Int.emod_lt_of_pos p hM
  omega

/-- Truncated division by a positive `M` of a nonpositive dividend:
`p ≤ M·q < p + M`. -/
theorem tdiv_bounds_nonpos {p M : Int} (hM : 0 < M) (hp : p ≤ 0) :
    p ≤ M * p.tdiv M ∧ M * p.tdiv M < p + M := by
  have he : p.tdiv M = -((-p).tdiv M) := by
    rw [← Int.neg_tdiv, neg_neg]
  obtain ⟨h1, h2⟩ := tdiv_bounds_nonneg hM (by omega : (0:Int) ≤ -p)
  rw [he]
  constructor <;> nlinarith

/-- Core gravity bound: with `|A| ≤ M` and `0 ≤ B ≤ M`,
`|A + B − (A·B) tdiv M| ≤ M`. -/
theorem gravity_core {A B : Int} (hA : |A| ≤ 16384) (hB0 : 0 ≤ B)
    (hBM : B ≤ 16384) : |A + B - (A * B).tdiv 16384| ≤ 16384 := by
  rw [abs_le] at hA
  set M : Int := 16384 with hMdef
  set q := (A * B).tdiv M with hq
  have hM : (0:Int) < M := by norm_num
  rcases le_or_lt 0 A with hA0 | hA0
  · obtain ⟨hq1, hq2⟩ := tdiv_bounds_nonneg hM (mul_nonneg hA0 hB0)
    have key : M * (A + B - M) ≤ A * B := by nlinarith
    have h1 : A + B - M ≤ q := by
      by_contra hcon
      push_neg at hcon
      have : M * q ≤ M * (A + B - M - 1) :=
        mul_le_mul_of_nonneg_left (by omega) hM.le
      nlinarith
    have h2 : q ≤ A := by
      by_contra hcon
      push_neg at hcon
      have : M * (A + 1) ≤ M * q := mul_le_mul_of_nonneg_left (by omega) hM.le
      nlinarith
    rw [abs_le]
    omega
  · obtain ⟨hq1, hq2⟩ := tdiv_bounds_nonpos hM
      (mul_nonpos_of_nonpos_of_nonneg hA0.le hB0)
    have key : M * (A + B - M) ≤ A * B := by nlinarith
    have key2 : A * B ≤ M * (A + B + M) := by nlinarith
    have h1 : A + B - M ≤ q := by
      by_contra hcon
      push_neg at hcon
      have : M * q ≤ M * (A + B - M - 1) :=
        mul_le_mul_of_nonneg_left (by omega) hM.le
      nlinarith
    have h2 : q ≤ A + B + M := by
      by_contra hcon
      push_neg at hcon
      have : M * (A + B + M + 1) ≤ M * q := mul_le_mul_of_nonneg_left (by omega) hM.le
      nlinarith
    rw [abs_le]
    omega

/-- The gravity update keeps one history cell within ±16384, for an
arbitrary (unclamped) bonus. -/
theorem history_gravity_bound (old bonus : Int) (h : |old| ≤ 16384) :
    |historyUpdateEntry old bonus| ≤ 16384 := by
  have hdef : historyUpdateEntry old bonus =
      old + min 16384 (max (-16384) bonus) -
        (old * |min 16384 (max (-16384) bonus)|).tdiv 16384 := rfl
  rw [hdef]
  set c := min 16384 (max (-16384) bonus) with hcdef
  have hc1 : (-16384 : Int) ≤ c := le_min (by norm_num) (le_max_left _ _)
  have hc2 : c ≤ 16384 := min_le_left _ _
  rcases le_or_lt 0 c with hc0 | hc0
  · rw [abs_of_nonneg hc0]
    exact gravity_core h hc0 hc2
  · rw [abs_of_neg hc0]
    have haux := gravity_core (A := -old) (B := -c) (by rwa [abs_neg]) (by omega)
      (by omega)
    have e : (-old) * (-c) = -(old * -c) := by ring
    rw [e, Int.neg_tdiv] at haux
    rw [abs_le] at haux ⊢
    omega

/-- Every cell of a history table is within ±16384. -/
def histBounded (t : HistTable) : Prop := ∀ c f s, |t c f s| ≤ 16384

/-- `|x tdiv 2| ≤ |x|`: aging can only shrink a cell. -/
theorem abs_tdiv_two_le (x : Int) : |x.tdiv 2| ≤ |x| := by
  rcases le_or_lt 0 x with h0 | h0
  · obtain ⟨h1, h2⟩ := tdiv_bounds_nonneg (p := x) (M := 2) (by norm_num) h0
    have h3 : 0 ≤ x.tdiv 2 := Int.tdiv_nonneg h0 (by norm_num)
    rw [abs_of_nonneg h0, abs_of_nonneg h3]
    omega
  · obtain ⟨h1, h2⟩ := tdiv_bounds_nonpos (p := x) (M := 2) (by norm_num) h0.le
    have h3 : x.tdiv 2 ≤ 0 := by omega
    rw [abs_of_nonpos h0.le, abs_of_nonpos h3]
    omega

/-- One history-table call preserves the bound. -/
theorem historyApplyOp_bounded {t : HistTable} (h : histBounded t)
    (op : HistoryOp) : histBounded (historyApplyOp t op) := by
  cases op with
  | update color mv bonus =>
      intro c f s
      show |historyUpdate t color mv bonus c f s| ≤ 16384
      unfold historyUpdate
      split
      · exact history_gravity_bound _ _ (h _ _ _)
      · exact h _ _ _
  | age =>
      intro c f s
      exact le_trans (abs_tdiv_two_le _) (h _ _ _)
  | clear =>
      intro c f s
      simp [historyApplyOp, historyClear]

/-- C6: starting from the all-zeros table, after any sequence of `update`
calls with arbitrary bonuses and any interleaved `age` or `clear` calls,
every history entry satisfies `|score| ≤ 16384`. -/
theorem history_stays_bounded (ops : List HistoryOp) (c : Color) (f s : Nat) :
    |historyRun ops c f s| ≤ 16384 := by
  suffices h : ∀ (l : List HistoryOp) (t : HistTable), histBounded t →
      histBounded (l.foldl historyApplyOp t) by
    exact h ops historyNew (fun _ _ _ => by simp [historyNew]) c f s
  intro l
  induction l with
  | nil => intro t ht; exact ht
  | cons op l ih =>
      intro t ht
      exact ih _ (historyApplyOp_bounded ht op)

/-! ## C7 — tapered hand-crafted evaluation -/

/-- The branchy phase computation equals the spec's clamp formula for any
nonnegative phase material. -/
theorem phase_clamp (m : Int) (hm : 0 ≤ m) :
    (if 24 - m < 0 then 0
     else if 24 - m > 24 then (256 : Int)
     else ((24 - m) * 256).tdiv 24) =
      max 0 (min 256 (((24 - m) * 256).tdiv 24)) := by
  rcases le_or_lt m 24 with h | h
  · have h1 : ¬ (24 - m < 0) := by omega
    have h2 : ¬ (24 - m > 24) := by omega
    simp only [h1, if_false, h2]
    have hX0 : 0 ≤ ((24 - m) * 256).tdiv 24 :=
      Int.tdiv_nonneg (by nlinarith) (by norm_num)
    obtain ⟨hl, hr⟩ := tdiv_bounds_nonneg (p := (24 - m) * 256) (M := 24)
      (by norm_num) (by nlinarith)
    omega
  · have h1 : 24 - m < 0 := by omega
    simp only [h1, if_true]
    obtain ⟨hl, hr⟩ := tdiv_bounds_nonpos (p := (24 - m) * 256) (M := 24)
      (by norm_num) (by nlinarith)
    omega

/-- `calculate_phase` written as the spec's
`clamp((24 − (N + B + 2R + 4Q)) · 256 / 24, 0, 256)`. -/
theorem calculatePhase_eq_clamp (b : Board) :
    calculatePhase b =
      max 0 (min 256 (((24 -
        ((popcount64 (b.pieceBB .Knight) : Int) +
          (popcount64 (b.pieceBB .Bishop) : Int) +
          2 * (popcount64 (b.pieceBB .Rook) : Int) +
          4 * (popcount64 (b.pieceBB .Queen) : Int))) * 256).tdiv 24)) := by
  simp only [calculatePhase, PHASE_TOTAL]
  exact phase_clamp _ (by positivity)

/-- C7: the hand-crafted evaluation returns the tapered score
`(MG·(256−phase) + EG·phase) / 256` computed from white's perspective over
material, piece-square tables, bishop pair and passed pawns (`evalSide`),
plus the endgame king-activity bonuses when `phase > 128`, negated when the
side to move is black, with
`phase = clamp((24 − (N + B + 2R + 4Q)) · 256/24, 0, 256)` over both sides'
pieces (`Score::cp` casts the i32 result to i16, hence `wrap16`). -/
theorem hce_evaluate_tapered (b : Board) :
    hceEvaluate b =
      (let m : Int := (popcount64 (b.pieceBB .Knight) : Int) +
          (popcount64 (b.pieceBB .Bishop) : Int) +
          2 * (popcount64 (b.pieceBB .Rook) : Int) +
          4 * (popcount64 (b.pieceBB .Queen) : Int)
       let phase := max 0 (min 256 (((24 - m) * 256).tdiv 24))
       let score := (evalSide b true).subW (evalSide b false)
       let score := if phase > 128 then score.addW (hceEndgameBonuses b phase)
                    else score
       let tapered := (score.mg * (256 - phase) + score.eg * phase).tdiv 256
       if b.turn = .White then wrap16 tapered else wrap16 (-tapered)) := by
  simp only [hceEvaluate]
  rw [calculatePhase_eq_clamp]

/-! ## C10 — automatic endgame-evaluation dispatch -/

/-- C10: whenever `should_use_endgame` holds (at most 3 non-pawn/king
pieces, or at most 6 of them together with a material edge of at least
150 cp), `SearchEvaluator::evaluate` returns the dedicated endgame
evaluator's score for every configured variant — bypassing the NNUE forward
pass and the tapered HCE — and otherwise it dispatches on the variant. -/
theorem search_evaluator_dispatch (b : Board) (v : EvaluatorVariant) :
    searchEvaluatorEvaluate v b =
      (if shouldUseEndgame b then endgameEvaluate b
       else match v with
         | .Nnue f => f b
         | .Hce => hceEvaluate b
         | .Endgame => endgameEvaluate b
         | .Material => materialEvalWrapper b) ∧
    shouldUseEndgame b =
      (decide (popcount64 (b.pieceBB .Knight ||| b.pieceBB .Bishop |||
          b.pieceBB .Rook ||| b.pieceBB .Queen) ≤ 3) ||
        (decide (popcount64 (b.pieceBB .Knight ||| b.pieceBB .Bishop |||
            b.pieceBB .Rook ||| b.pieceBB .Queen) ≤ 6) &&
          decide (150 ≤ |endgameMaterialBalance b|))) := by
  constructor
  · simp only [searchEvaluatorEvaluate, USE_ENDGAME_EVAL, Bool.true_and]
  · simp only [shouldUseEndgame, USE_ENDGAME_EVAL, ENDGAME_PIECE_THRESHOLD,
      MATERIAL_ADVANTAGE_THRESHOLD, Bool.not_true, Bool.false_eq_true,
      if_false]
    by_cases h3 : popcount64 (b.pieceBB .Knight ||| b.pieceBB .Bishop |||
        b.pieceBB .Rook ||| b.pieceBB .Queen) ≤ 3 <;>
      by_cases h6 : popcount64 (b.pieceBB .Knight ||| b.pieceBB .Bishop |||
          b.pieceBB .Rook ||| b.pieceBB .Queen) ≤ 6 <;>
        simp [h3, h6]

/-! ## C5 — SEE of non-captures -/

/-- A board carrying only a white pawn on a2 (square 8). -/
def pawnOnlyBoard : Board :=
  { pieceBB := fun p => if p = .Pawn then 1 <<< 8 else 0,
    colorBB := fun c => if c = .White then 1 <<< 8 else 0,
    turn := .White, hash := 0 }

/-- The quiet pawn push a2–a3. -/
def pawnPushMove : Move := { fromSq := 8, toSq := 16, flag := .Quiet }

/-- When no attacker of the target remains, the swap-off loop returns the
gains stack unchanged. -/
theorem seeLoop_getLva_none {b : Board} {toSq occupied : Nat} {side : Color}
    {lastValue : Int} {depth : Nat} {gains : Nat → Int}
    (h : getLva b toSq side occupied = none) :
    seeLoop b toSq occupied side lastValue depth gains = some (gains, depth) := by
  rw [seeLoop, h]

/-- C5 (counterexample): the claim says SEE of a non-capture (empty
destination, not en passant) is 0; but `see_captured` cannot distinguish a
quiet pawn move from an en-passant capture (`see.rs:77-85`) and scores the
quiet push a2–a3 as if a pawn were captured: SEE = 100, not 0. -/
theorem see_noncapture_counterexample :
    pawnOnlyBoard.pieceAt pawnPushMove.toSq = none ∧
    pawnPushMove.flag ≠ .EnPassant ∧
    see pawnOnlyBoard pawnPushMove = some 100 ∧
    see pawnOnlyBoard pawnPushMove ≠ some 0 := by
  have heval : see pawnOnlyBoard pawnPushMove = some 100 := by
    have h1 : see pawnOnlyBoard pawnPushMove =
        (seeLoop pawnOnlyBoard 16 0 Color.Black 100 1
            (fun i => if i = 0 then 100 else 0)).map
          (fun gd => seeFoldBack gd.1 gd.2 0) := rfl
    rw [h1, seeLoop_getLva_none (by decide)]
    rfl
  refine ⟨by decide, by decide, heval, ?_⟩
  rw [heval]
  decide

/-- C5 (amended): SEE of a move whose destination square holds no piece is
0 provided the moving piece is not a pawn; a pawn moving to an empty square
is instead treated as an en-passant capture of a pawn. -/
theorem see_noncapture_amended (b : Board) (mv : Move) (p : Piece) (c : Color)
    (hfrom : b.pieceAt mv.fromSq = some (p, c)) (hp : p ≠ .Pawn)
    (hto : b.pieceAt mv.toSq = none) :
    see b mv = some 0 := by
  unfold see
  rw [hto]
  unfold seeCaptured
  rw [hfrom]
  simp [hp]

/-- A board carrying only a white knight on b1 (square 1). -/
def knightOnlyBoard : Board :=
  { pieceBB := fun p => if p = .Knight then 1 <<< 1 else 0,
    colorBB := fun c => if c = .White then 1 <<< 1 else 0,
    turn := .White, hash := 0 }

/-- The quiet knight move b1–c3. -/
def knightQuietMove : Move := { fromSq := 1, toSq := 18, flag := .Quiet }

/-- C5 witness: the amended statement at the quiet knight move b1–c3. -/
theorem see_noncapture_witness :
    (knightOnlyBoard.pieceAt knightQuietMove.fromSq =
        some (Piece.Knight, Color.White) ∧
      Piece.Knight ≠ Piece.Pawn ∧
      knightOnlyBoard.pieceAt knightQuietMove.toSq = none) ∧
    see knightOnlyBoard knightQuietMove = some 0 :=
  ⟨⟨by decide, by decide, by decide⟩,
   see_noncapture_amended knightOnlyBoard knightQuietMove Piece.Knight Color.White
     (by decide) (by decide) (by decide)⟩

/-! ## C4 — main-search move ordering and the history table -/

/-- The empty board. -/
def emptyBoard : Board :=
  { pieceBB := fun _ => 0, colorBB := fun _ => 0, turn := .White, hash := 0 }

/-- A quiet move e2–e3 (12 → 20). -/
def quietMove : Move := { fromSq := 12, toSq := 20, flag := .Quiet }

/-- C4 (counterexample): the claim says a quiet move that is neither the TT
move nor a killer is scored with its history-table score; but `score_move`
(`ordering.rs:33-64`) never consults the history table — it scores such a
move 0.  With a history table holding 100 for the move, the scores differ. -/
theorem ordering_history_counterexample :
    emptyBoard.pieceOn quietMove.toSq = none ∧
    (none : Option Move) ≠ some quietMove ∧
    scoreMove emptyBoard quietMove none (none, none) = 0 ∧
    historyGet (historyUpdate historyNew Color.White quietMove 100)
      Color.White quietMove = 100 ∧
    scoreMove emptyBoard quietMove none (none, none) ≠
      historyGet (historyUpdate historyNew Color.White quietMove 100)
        Color.White quietMove := by
  refine ⟨?_, ?_, ?_, ?_, ?_⟩ <;> decide

/-- C4 (amended): in main-search move ordering a quiet, non-promoting move
that is neither the TT move nor one of the two killers is scored 0 — the
history table is not consulted (TT move 1 000 000; killer slots 40 000 and
35 000 for quiet moves only) — and the move list is then sorted in
descending score. -/
theorem ordering_quiet_amended :
    (∀ (b : Board) (m : Move) (ttMove : Option Move)
        (killers : Option Move × Option Move),
        b.pieceOn m.toSq = none → ttMove ≠ some m → killers.1 ≠ some m →
        killers.2 ≠ some m → m.getPromotion = none →
        scoreMove b m ttMove killers = 0) ∧
    (∀ (b : Board) (moves : List Move) (ttMove : Option Move)
        (killers : Option Move × Option Move),
        (orderMovesWithTTAndKillers b moves ttMove killers).Pairwise
          (fun x y =>
            scoreMove b y ttMove killers ≤ scoreMove b x ttMove killers)) := by
  constructor
  · intro b m ttMove killers hquiet htt hk0 hk1 hpromo
    simp [scoreMove, htt, hquiet, hk0, hk1, hpromo]
  · intro b moves ttMove killers
    unfold orderMovesWithTTAndKillers
    rw [List.pairwise_map]
    have hsorted := @List.sorted_mergeSort (Move × Int)
      (fun x y : Move × Int => decide (y.2 ≤ x.2))
      (fun a b' c' hab hbc => by
        simp only [decide_eq_true_eq] at *
        omega)
      (fun a b' => by
        simp only [Bool.or_eq_true, decide_eq_true_eq]
        omega)
      (moves.map fun m => (m, scoreMove b m ttMove killers))
    have hperm := List.mergeSort_perm
      (moves.map fun m => (m, scoreMove b m ttMove killers))
      (fun x y : Move × Int => decide (y.2 ≤ x.2))
    have hmem : ∀ p ∈ (moves.map fun m => (m, scoreMove b m ttMove killers)).mergeSort
        (fun x y : Move × Int => decide (y.2 ≤ x.2)),
        p.2 = scoreMove b p.1 ttMove killers := by
      intro p hp
      have hp2 : p ∈ moves.map fun m => (m, scoreMove b m ttMove killers) :=
        hperm.mem_iff.mp hp
      obtain ⟨m, -, rfl⟩ := List.mem_map.mp hp2
      rfl
    refine hsorted.imp_of_mem ?_
    intro p q hp hq hr
    have hr2 : q.2 ≤ p.2 := by simpa using hr
    rw [hmem p hp, hmem q hq] at hr2
    exact hr2

/-- C4 witness: the amended quiet-move score at a concrete quiet move with
no TT move and no killers. -/
theorem ordering_quiet_witness :
    (emptyBoard.pieceOn quietMove.toSq = none ∧
      (none : Option Move) ≠ some quietMove ∧
      quietMove.getPromotion = none) ∧
    scoreMove emptyBoard quietMove none (none, none) = 0 :=
  ⟨⟨by decide, by decide, by decide⟩,
   ordering_quiet_amended.1 emptyBoard quietMove none (none, none)
     (by decide) (by decide) (by decide) (by decide) (by decide)⟩

/-! ## C9 — the SEE gains stack never overflows -/

/-- A single board step lands on a square index below 64. -/
theorem shiftSq_lt {sq : Nat} {df dr : Int} {t : Nat}
    (h : shiftSq sq df dr = some t) : t < 64 := by
  simp only [shiftSq] at h
  split at h
  · rename_i hcond
    injection h with h
    omega
  · exact absurd h (by simp)

/-- A one-bit mask of a square below 64 has no bit at index ≥ 64. -/
theorem bit_high_false {t i : Nat} (ht : t < 64) (hi : 64 ≤ i) :
    (1 <<< t).testBit i = false := by
  rw [Nat.shiftLeft_eq, one_mul, Nat.testBit_two_pow]
  simp
  omega

/-- Leaper attack masks carry only bits below 64. -/
theorem leaperAttacks_high (ds : List (Int × Int)) (sq : Nat) :
    ∀ i, 64 ≤ i → (leaperAttacks ds sq).testBit i = false := by
  suffices H : ∀ (l : List (Int × Int)) (acc : Nat),
      (∀ i, 64 ≤ i → acc.testBit i = false) →
      ∀ i, 64 ≤ i → (l.foldl (fun acc d => addStep acc sq d) acc).testBit i = false by
    exact fun i hi => H ds 0 (by simp) i hi
  intro l
  induction l with
  | nil => intro acc hacc; exact hacc
  | cons d l ih =>
      intro acc hacc
      apply ih
      intro j hj
      show (addStep acc sq d).testBit j = false
      unfold addStep
      cases hs : shiftSq sq d.1 d.2 with
      | none => simp only [hs]; exact hacc j hj
      | some t =>
          simp only [hs, Nat.testBit_or, hacc j hj,
            bit_high_false (shiftSq_lt hs) hj, Bool.or_self]

/-- Sliding-ray walks carry only bits below 64. -/
theorem rayWalk_high (occ : Nat) (df dr : Int) :
    ∀ (fuel cur acc : Nat), (∀ i, 64 ≤ i → acc.testBit i = false) →
      ∀ i, 64 ≤ i → (rayWalk occ df dr fuel cur acc).testBit i = false := by
  intro fuel
  induction fuel with
  | zero => intro cur acc hacc; exact hacc
  | succ fuel ih =>
      intro cur acc hacc i hi
      unfold rayWalk
      cases hs : shiftSq cur df dr with
      | none => exact hacc i hi
      | some t =>
          have hacc2 : ∀ j, 64 ≤ j → (acc ||| (1 <<< t)).testBit j = false := by
            intro j hj
            simp [Nat.testBit_or, hacc j hj, bit_high_false (shiftSq_lt hs) hj]
          by_cases htb : occ.testBit t
          · simp only [htb, if_true]
            exact hacc2 i hi
          · simp only [htb, if_false]
            exact ih t _ hacc2 i hi

/-- `rayAttacks` carries only bits below 64. -/
theorem rayAttacks_high (sq : Nat) (df dr : Int) (occ : Nat) :
    ∀ i, 64 ≤ i → (rayAttacks sq df dr occ).testBit i = false := fun i hi =>
  rayWalk_high occ df dr 7 sq 0 (by simp) i hi

/-- Every attack mask used by SEE carries only bits below 64. -/
theorem attackMask_high (target : Nat) (p : Piece) (side : Color)
    (occ : Nat) :
    ∀ i, 64 ≤ i →
      (match p with
       | .Pawn => pawnAttacks side.flip target
       | .Knight => knightAttacks target
       | .Bishop => bishopAttacks target occ
       | .Rook => rookAttacks target occ
       | .Queen => bishopAttacks target occ ||| rookAttacks target occ
       | .King => kingAttacks target).testBit i = false := by
  intro i hi
  cases p
  · cases side <;>
      exact leaperAttacks_high _ _ i hi
  · exact leaperAttacks_high _ _ i hi
  · simp [bishopAttacks, Nat.testBit_or, rayAttacks_high _ _ _ _ i hi]
  · simp [rookAttacks, Nat.testBit_or, rayAttacks_high _ _ _ _ i hi]
  · simp [bishopAttacks, rookAttacks, Nat.testBit_or, rayAttacks_high _ _ _ _ i hi]
  · exact leaperAttacks_high _ _ i hi

/-- A set bit of `get_piece_attacks` is a set bit of the occupancy at a
square index below 64. -/
theorem getPieceAttacks_bit {b : Board} {target : Nat} {p : Piece}
    {side : Color} {occ i : Nat}
    (h : (getPieceAttacks b target p side occ).testBit i = true) :
    occ.testBit i = true ∧ i < 64 := by
  have hmask := attackMask_high target p side occ i
  cases p <;>
    (simp only [getPieceAttacks, Nat.testBit_and, Bool.and_eq_true] at h
     refine ⟨h.1.2, ?_⟩
     by_contra hge
     push_neg at hge
     rw [hmask hge] at h
     simp at h)

/-- The least set bit of a bitboard whose bits all lie below 64. -/
theorem lsb64_spec {n : Nat} (hne : n ≠ 0)
    (hhigh : ∀ i, 64 ≤ i → n.testBit i = false) :
    n.testBit (lsb64 n) = true ∧ lsb64 n < 64 := by
  have hex : ∃ i, n.testBit i = true := by
    by_contra hc
    push_neg at hc
    exact hne (Nat.eq_of_testBit_eq fun i => by
      simp [Bool.eq_false_iff.mpr (hc i)])
  obtain ⟨i, hi⟩ := hex
  have hi64 : i < 64 := by
    by_contra hge
    push_neg at hge
    rw [hhigh i hge] at hi
    simp at hi
  cases hfind : (List.range 64).find? (fun j => n.testBit j) with
  | none =>
      exact absurd hi (by
        simpa using List.find?_eq_none.mp hfind i (List.mem_range.mpr hi64))
  | some j =>
      have hj := List.find?_some hfind
      have hjm := List.mem_of_find?_eq_some hfind
      unfold lsb64
      rw [hfind]
      exact ⟨hj, List.mem_range.mp hjm⟩

/-- The square returned by `get_lva` is an occupied square below 64. -/
theorem getLva_some {b : Board} {sq : Nat} {side : Color} {occ : Nat}
    {s : Nat} {p : Piece} (h : getLva b sq side occ = some (s, p)) :
    occ.testBit s = true ∧ s < 64 := by
  unfold getLva at h
  obtain ⟨l1, piece, l2, -, hf, -⟩ := List.findSome?_eq_some_iff.mp h
  by_cases hne : getPieceAttacks b sq piece side occ ≠ 0
  · rw [if_pos hne] at hf
    injection hf with hf
    have hhigh : ∀ i, 64 ≤ i →
        (getPieceAttacks b sq piece side occ).testBit i = false := by
      intro i hi
      by_contra hc
      have := getPieceAttacks_bit (Bool.not_eq_false _ |>.mp hc)
      omega
    obtain ⟨hbit, hlt⟩ := lsb64_spec hne hhigh
    have hpair : s = lsb64 (getPieceAttacks b sq piece side occ) := by
      have := congrArg Prod.fst hf
      simpa using this.symm
    subst hpair
    exact ⟨(getPieceAttacks_bit hbit).1, hlt⟩
  · rw [if_neg hne] at hf
    exact absurd hf (by simp)

/-- A set bit below 64 makes the 64-bit popcount positive. -/
theorem popcount64_pos {n i : Nat} (h : n.testBit i = true) (hi : i < 64) :
    1 ≤ popcount64 n := by
  unfold popcount64
  calc (1 : Nat) = if n.testBit i then 1 else 0 := by simp [h]
    _ ≤ _ := Finset.single_le_sum (f := fun j => if n.testBit j then 1 else 0)
        (fun j _ => by positivity) (Finset.mem_range.mpr hi)

/-- Clearing a set bit below 64 decreases the 64-bit popcount by one. -/
theorem popcount64_clear_bit {n sq : Nat} (h : n.testBit sq = true)
    (hsq : sq < 64) :
    popcount64 (n ^^^ (1 <<< sq)) + 1 = popcount64 n := by
  have h1 : (1 : Nat) <<< sq = 2 ^ sq := by rw [Nat.shiftLeft_eq, one_mul]
  have hmem : sq ∈ Finset.range 64 := Finset.mem_range.mpr hsq
  unfold popcount64
  rw [← Finset.sum_erase_add _ _ hmem, ← Finset.sum_erase_add _ _ hmem]
  have herase : ∑ i ∈ (Finset.range 64).erase sq,
      (if (n ^^^ (1 <<< sq)).testBit i then 1 else 0) =
      ∑ i ∈ (Finset.range 64).erase sq, (if n.testBit i then 1 else 0) := by
    refine Finset.sum_congr rfl fun i hi => ?_
    have hne : i ≠ sq := (Finset.mem_erase.mp hi).1
    rw [h1, Nat.testBit_xor, Nat.testBit_two_pow]
    simp [Ne.symm hne]
  rw [herase]
  have hat : (n ^^^ (1 <<< sq)).testBit sq = false := by
    rw [h1, Nat.testBit_xor, Nat.testBit_two_pow, h]
    simp
  rw [hat, h]
  simp

/-- Totality of the swap-off loop: as long as the write index plus the
number of occupied squares is at most 32, every gains write stays in
bounds. -/
theorem seeLoop_isSome_aux (b : Board) (toSq : Nat) (n : Nat) :
    ∀ (occ : Nat) (side : Color) (lv : Int) (depth : Nat) (gains : Nat → Int),
      popcount64 occ = n → popcount64 occ + depth ≤ 32 →
      (seeLoop b toSq occ side lv depth gains).isSome := by
  induction n with
  | zero =>
      intro occ side lv depth gains hpc hle
      rw [seeLoop]
      cases hl : getLva b toSq side occ with
      | none => simp
      | some sp =>
          obtain ⟨sq, piece⟩ := sp
          obtain ⟨hbit, hlt⟩ := getLva_some hl
          have := popcount64_pos hbit hlt
          omega
  | succ n ih =>
      intro occ side lv depth gains hpc hle
      rw [seeLoop]
      cases hl : getLva b toSq side occ with
      | none => simp
      | some sp =>
          obtain ⟨sq, piece⟩ := sp
          obtain ⟨hbit, hlt⟩ := getLva_some hl
          have hd : depth < 32 := by omega
          simp only [dif_pos hd]
          have hdec := popcount64_clear_bit hbit hlt
          by_cases hk : piece = Piece.King
          · simp [hk]
          · simp only [hk, if_false]
            exact ih _ _ _ _ _ (by omega) (by omega)

/-- `Option.map` preserves `isSome`. -/
theorem isSome_map_eq {a b : Type} (f : a → b) (x : Option a) :
    (x.map f).isSome = x.isSome := by
  cases x <;> rfl

/-- The seeded run is total whenever at most 31 squares besides the mover
are occupied. -/
theorem seeRun_isSome (b : Board) (mv : Move) (ap : Piece) (g0 : Int)
    (hocc : popcount64 (b.occupied ^^^ (1 <<< mv.fromSq)) ≤ 31) :
    (seeRun b mv ap g0).isSome := by
  unfold seeRun
  rw [isSome_map_eq]
  apply seeLoop_isSome_aux b mv.toSq
    (popcount64 (b.occupied ^^^ (1 <<< mv.fromSq))) _ _ _ _ _ rfl
  omega

/-- C9: the SEE exchange simulation never overflows its fixed 32-entry
gains stack: when the occupancy bitboard with the mover's square removed
holds at most 31 squares (as on any chess position, which has at most 32
pieces), the swap-off loop removes one set occupancy bit per iteration, so
every write `gains[d]` has `d < 32` and `see_captured` is total (`isSome`
in the panic-as-`none` model). -/
theorem see_gains_stack_safe (b : Board) (mv : Move) (victim : Option Piece)
    (hocc : popcount64 (b.occupied ^^^ (1 <<< mv.fromSq)) ≤ 31) :
    (seeCaptured b mv victim).isSome := by
  unfold seeCaptured
  cases hfrom : (b.pieceAt mv.fromSq).map Prod.fst with
  | none => cases victim <;> simp
  | some a =>
      cases victim with
      | some v => exact seeRun_isSome b mv a _ hocc
      | none =>
          by_cases hp : a = Piece.Pawn
          · simp only [hp, if_pos rfl]
            exact seeRun_isSome b mv _ _ hocc
          · simp [hp]

/-- C9 witness: totality at the concrete lone-pawn board, whose occupancy
without the mover is empty. -/
theorem see_gains_stack_safe_witness :
    popcount64 (pawnOnlyBoard.occupied ^^^ (1 <<< pawnPushMove.fromSq)) ≤ 31 ∧
    (seeCaptured pawnOnlyBoard pawnPushMove none).isSome :=
  ⟨by decide,
   see_gains_stack_safe pawnOnlyBoard pawnPushMove none (by decide)⟩

/-! ## C1 — quiescence and the NNUE refresh signal -/

/-- White Ke1, black Qd2 and Kh8, white to move: the only capture is the
king taking the queen. -/
def kingCaptureBoard : Board :=
  { pieceBB := fun p =>
      if p = .King then (1 <<< 4) ||| (1 <<< 63)
      else if p = .Queen then 1 <<< 11 else 0,
    colorBB := fun c =>
      if c = .White then 1 <<< 4 else (1 <<< 11) ||| (1 <<< 63),
    turn := .White, hash := 0 }

/-- The capture e1×d2 (king takes queen). -/
def kingCaptureMove : Move := { fromSq := 4, toSq := 11, flag := .Quiet }

/-- The position after e1×d2: white Kd2, black Kh8, black to move. -/
def kingCaptureAfterBoard : Board :=
  { pieceBB := fun p => if p = .King then (1 <<< 11) ||| (1 <<< 63) else 0,
    colorBB := fun c => if c = .White then 1 <<< 11 else 1 <<< 63,
    turn := .Black, hash := 0 }

/-- C1: the claim says the quiescence search checks `update_move`'s return
value on every capture and calls `refresh` on `false` before evaluating the
child.  The code does not: `qsearch.rs:162` discards the boolean and never
refreshes, although `update_state_for_move` documents `false` as "signal
caller to do full refresh".  At the capture e1×d2 the mover is the king, so
`update_move` returns `false` and leaves the accumulator untouched; the
child evaluator quiescence then uses still carries the pre-move white king
square (e1 = 4), while the refresh the claim requires would rebuild it at
d2 = 11.  The child is therefore evaluated with a stale HalfKP accumulator. -/
theorem quiescence_missing_refresh :
    (updateStateForMove (createState kingCaptureBoard) kingCaptureBoard
        kingCaptureMove).2 = false ∧
    quiescenceChildEvaluator (createState kingCaptureBoard) kingCaptureBoard
        kingCaptureMove = createState kingCaptureBoard ∧
    (quiescenceChildEvaluator (createState kingCaptureBoard) kingCaptureBoard
        kingCaptureMove).wKing = 4 ∧
    (createState kingCaptureAfterBoard).wKing = 11 := by
  refine ⟨?_, rfl, ?_, ?_⟩
  · decide
  · decide
  · decide

end Porcupine
